import Mathlib

/-!
Verification development for the Squamish Weatherman scripts
(`fetch_hrdps_squamish_insecure.py` and `fetch_hrdps_squamish_insecure2.py`).

The Python sources are shallowly embedded here:
* numpy float arrays are modelled as lists of rationals (`List ℚ`);
* the argmin-based nearest-cell grid sampler is modelled on the row-major
  flattened arrays (numpy's `argmin` operates on the flattened array and
  `unravel_index` followed by 2-D indexing equals flat indexing);
* real-valued trigonometry (`np.arctan2`, `np.degrees`, `np.hypot`, float `%`)
  is modelled over `ℝ`;
* fallible operations (HTTP requests, list indexing) return `Option`/`Except`;
* the file-system side effects of `tempfile`/`os.remove` are modelled as
  explicit state passing over a list of live temporary files.
-/

set_option maxRecDepth 4096

/-! ## Python string primitives (modelled on `List Char`) -/

/-- Conversion from a Lean string to the character list it wraps. -/
def strL (s : String) : List Char := s.data

/-- Conversion from a character list back to a string. -/
def ofL (l : List Char) : String := String.mk l

/-- Does `s` start with the (case-sensitively matched) pattern `pat`? -/
def startsWithExact : List Char → List Char → Bool
  | [], _ => true
  | _ :: _, [] => false
  | p :: ps, c :: cs => (c == p) && startsWithExact ps cs

/-- Does `s` start, case-insensitively, with the pattern `pat`?
`pat` is given in lowercase; each character of `s` is lowered before
comparison, modelling Python's `re.IGNORECASE` / `str.lower()` on ASCII. -/
def startsWithCI : List Char → List Char → Bool
  | [], _ => true
  | _ :: _, [] => false
  | p :: ps, c :: cs => (c.toLower == p) && startsWithCI ps cs

/-- Does the (case-sensitive) pattern `pat` occur anywhere in `s`?
Models Python's `pat in s` substring test. -/
def occursExactL (pat : List Char) : List Char → Bool
  | [] => startsWithExact pat []
  | c :: cs => startsWithExact pat (c :: cs) || occursExactL pat cs

/-- Python `s.split(pat)[0]` for a non-empty `pat`: the longest prefix of `s`
strictly before the first occurrence of `pat` (all of `s` if `pat` is absent). -/
def beforeFirst (pat : List Char) : List Char → List Char
  | [] => []
  | c :: cs => if startsWithExact pat (c :: cs) then [] else c :: beforeFirst pat cs

/-- The ASCII whitespace characters removed by Python's `str.strip()`. -/
def isPyWhitespace (c : Char) : Bool :=
  c == ' ' || c == '\t' || c == '\n' || c == '\r' || c == '\x0b' || c == '\x0c'

/-- Python `str.strip()` on ASCII whitespace. -/
def pyStrip (l : List Char) : List Char :=
  ((l.dropWhile isPyWhitespace).reverse.dropWhile isPyWhitespace).reverse

/-- Python list indexing `l[i]` as a total function returning `none` where
Python would raise `IndexError`; negative indices count from the end. -/
def pyListGet {α : Type} (l : List α) (i : ℤ) : Option α :=
  if 0 ≤ i then l.get? i.toNat
  else if (-i).toNat ≤ l.length then l.get? (l.length - (-i).toNat)
  else none

/-! ## GridSampler (`extract_temps` / `extract_wind`)

`d2 = (lats - lat0)**2 + (lons - lon0)**2; iy, ix = np.unravel_index(d2.argmin(), d2.shape);
value = vals[iy, ix]`.  The 2-D arrays are modelled flattened in row-major
order, which is exactly the order `argmin` scans. -/

/-- Squared Euclidean distance in latitude/longitude degree space,
the elementwise body of `(lats - lat0)**2 + (lons - lon0)**2` (`**2` is
written as self-multiplication so that the kernel can evaluate it). -/
def sqDist (lat lon lat0 lon0 : ℚ) : ℚ :=
  (lat - lat0) * (lat - lat0) + (lon - lon0) * (lon - lon0)

/-- The flattened distance-squared array `(lats - lat0)**2 + (lons - lon0)**2`. -/
def d2List (lats lons : List ℚ) (lat0 lon0 : ℚ) : List ℚ :=
  List.zipWith (fun la lo => (la - lat0) * (la - lat0) + (lo - lon0) * (lo - lon0)) lats lons

/-- numpy `argmin` on a flattened array: the index of the first occurrence of
the minimum in row-major scan order (`none` on an empty array, where numpy
raises). A head element keeps its index on ties (`≤`), so the first minimum
wins. -/
def argmin : List ℚ → Option ℕ
  | [] => none
  | x :: xs =>
    match argmin xs with
    | none => some 0
    | some j => if x ≤ xs.getD j 0 then some 0 else some (j + 1)

/-- The nearest-cell sampler: sample `vals` at the argmin of the squared
distance grid, i.e. `vals[np.unravel_index(d2.argmin(), d2.shape)]`. -/
def nearestSample (vals lats lons : List ℚ) (lat0 lon0 : ℚ) : Option ℚ :=
  (argmin (d2List lats lons lat0 lon0)).bind (fun i => vals.get? i)

/-! ## RunSelector (`find_best_run`)

`h = 12 if now.hour >= 12 else 0; run = now.replace(hour=h, minute=0, ...)`,
probe the hour-0 U-wind resource with `requests.head`; on a non-200 status or
any exception subtract 12 hours, otherwise keep the candidate.  Instants are
modelled as whole hours: a UTC day number plus an hour-of-day; `ModelRun` is
an absolute hour count, so `run -= timedelta(hours=12)` is `- 12`. -/

/-- A UTC instant, to the granularity `find_best_run` inspects. -/
structure UTCInstant where
  day : ℤ
  hour : ℕ
  deriving DecidableEq

/-- The candidate run `now.replace(hour=12 if now.hour >= 12 else 0, minute=0,
second=0, microsecond=0)`, as an absolute hour count. -/
def candidate_run (now : UTCInstant) : ℤ :=
  now.day * 24 + (if 12 ≤ now.hour then 12 else 0)

/-- `find_best_run`, with the `requests.head` probe injected as its outcome:
`Except.error` models any raised exception, `Except.ok s` a response with
status code `s`.  There is exactly one fallback step and no second probe. -/
def find_best_run (probe : Except String ℕ) (now : UTCInstant) : ℤ :=
  match probe with
  | Except.ok status =>
      if status ≠ 200 then candidate_run now - 12 else candidate_run now
  | Except.error _ => candidate_run now - 12

/-! ## Temporary-file lifecycle of one hour iteration (insecure2 `main` loop)

`uf, vf, tf = download(uurl), download(vurl), download(turl)` happen *before*
the `try:`; the `finally:` removes all three after extraction.  The file
system is modelled as the list of live temporary file ids plus a fresh-name
counter; `download` either allocates a fresh file (`ok` flag true) or raises. -/

/-- The modelled file-system state: ids of live temporary files, next fresh id. -/
structure TmpFS where
  files : List ℕ
  next : ℕ
  deriving DecidableEq

/-- `download(url)`: on success allocate a fresh temporary file and return its
id; on a non-200 response raise (`Except.error`).  The injected `ok` flag is
the outcome of the HTTP request. -/
def download_tmp (fs : TmpFS) (ok : Bool) : Except Unit (TmpFS × ℕ) :=
  if ok then Except.ok ({ files := fs.files ++ [fs.next], next := fs.next + 1 }, fs.next)
  else Except.error ()

/-- `os.remove(path)`. -/
def os_remove (fs : TmpFS) (n : ℕ) : TmpFS := { fs with files := fs.files.erase n }

/-- One hour iteration of the insecure2 `main` loop, lines 238-244: three
downloads (outside any `try`), then `try: extract ... finally: remove all
three`.  Returns the propagated outcome together with the final file-system
state at the moment the iteration ends (normally or by propagation). -/
def hour_iteration (okU okV okT extractOk : Bool) (fs : TmpFS) : Except Unit Unit × TmpFS :=
  match download_tmp fs okU with
  | Except.error e => (Except.error e, fs)
  | Except.ok (fs1, uf) =>
    match download_tmp fs1 okV with
    | Except.error e => (Except.error e, fs1)
    | Except.ok (fs2, vf) =>
      match download_tmp fs2 okT with
      | Except.error e => (Except.error e, fs2)
      | Except.ok (fs3, tf) =>
        let fs4 := os_remove (os_remove (os_remove fs3 uf) vf) tf
        ((if extractOk then Except.ok () else Except.error ()), fs4)

/-! ## Compass conversion (`deg_to_compass`, insecure2 lines 40-47) -/

/-- The 16 ordered compass points starting at N. -/
def COMPASS_POINTS : List String :=
  ["N", "NNE", "NE", "ENE", "E", "ESE", "SE", "SSE",
   "S", "SSW", "SW", "WSW", "W", "WNW", "NW", "NNW"]

/-- Python `int(...)` on a real number: truncation toward zero. -/
def pytrunc {α : Type} [LinearOrderedField α] [FloorRing α] (q : α) : ℤ :=
  if q < 0 then ⌈q⌉ else ⌊q⌋

/-- The index computed by `deg_to_compass`: `int((deg + 11.25) / 22.5) % 16`
(Python `%` on a positive modulus is `Int.emod`). -/
def compassIdx {α : Type} [LinearOrderedField α] [FloorRing α] (deg : α) : ℤ :=
  pytrunc ((deg + 11.25) / 22.5) % 16

/-- `deg_to_compass(deg) = COMPASS_POINTS[int((deg + 11.25) / 22.5) % 16]`. -/
def deg_to_compass {α : Type} [LinearOrderedField α] [FloorRing α] (deg : α) : Option String :=
  pyListGet COMPASS_POINTS (compassIdx deg)

/-- Modelled from the spec: the spec describes the compass index as
`round(degrees / 22.5) mod 16` (round to nearest); this is that formula,
to be compared with `compassIdx`, the index the code computes. -/
def specCompassIdx (deg : ℚ) : ℤ := round (deg / 22.5) % 16

/-! ## Wind derivation (`dir_met`, `np.hypot(u, v) * 1.94384`) -/

/-- `np.arctan2(y, x)`, the two-argument arctangent with range `(-π, π]`\(-ish\):
the standard piecewise definition over the four half-axes and quadrants. -/
noncomputable def atan2 (y x : ℝ) : ℝ :=
  if 0 < x then Real.arctan (y / x)
  else if x < 0 then
    (if 0 ≤ y then Real.arctan (y / x) + Real.pi else Real.arctan (y / x) - Real.pi)
  else if 0 < y then Real.pi / 2
  else if y < 0 then -(Real.pi / 2)
  else 0

/-- `np.degrees`: radians to degrees. -/
noncomputable def degrees (r : ℝ) : ℝ := r * 180 / Real.pi

/-- numpy float `%` with a positive modulus: `x - m * floor(x / m)`. -/
noncomputable def fmod (x m : ℝ) : ℝ := x - m * ⌊x / m⌋

/-- `dir_met(u, v) = (np.degrees(np.arctan2(-u, -v)) + 360) % 360`. -/
noncomputable def dir_met (u v : ℝ) : ℝ := fmod (degrees (atan2 (-u) (-v)) + 360) 360

/-- `np.hypot(u, v)`. -/
noncomputable def hypot (u v : ℝ) : ℝ := Real.sqrt (u ^ 2 + v ^ 2)

/-- `spd = np.hypot(u, v) * 1.94384`, the m/s → knots conversion. -/
noncomputable def speed_knots (u v : ℝ) : ℝ := hypot u v * 1.94384

/-! ## Thermal sequence highlighting (insecure2 `main`, lines 249-256) -/

/-- The point-of-interest table, in thermal-wind order. -/
def LOCS : List (String × ℚ × ℚ) :=
  [("Furry", 49.57399, -123.25493),
   ("Brit", 49.62383, -123.23021),
   ("7mesh", 49.70100, -123.15500),
   ("Cheak", 49.78259, -123.17802),
   ("Whis", 50.12938, -122.96207),
   ("Pemb", 50.31971, -122.80706),
   ("Lill", 50.69374, -121.93417)]

/-- `seq_full = [temps[lbl] for lbl, _, _ in LOCS]`; the per-hour temperature
dictionary is modelled as the lookup function `temps`. -/
def seq_full (temps : String → ℚ) : List ℚ := LOCS.map (fun loc => temps loc.1)

/-- `part = [temps['Furry'], temps['Brit'], temps['7mesh'], temps['Whis']]`. -/
def seq_part (temps : String → ℚ) : List ℚ :=
  [temps ("Furry"), temps ("Brit"), temps ("7mesh"), temps ("Whis")]

/-- `all(seq[i] < seq[i+1] for i in range(len(seq)-1))`. -/
def pyAllAscending (l : List ℚ) : Bool :=
  (List.range (l.length - 1)).all (fun i => decide (l.getD i 0 < l.getD (i + 1) 0))

/-- The three possible wrappings of the time field: bright green
(`H_GREEN`), yellow (`H_YELLOW`), or no wrapping. -/
inductive TimeEmphasis where
  | green
  | yellow
  | plain
  deriving DecidableEq

/-- The highlight decision of insecure2 `main`, lines 249-256: green when the
full seven-point sequence strictly increases, else yellow when the four-point
subsequence strictly increases, else no emphasis. -/
def thermalEmphasis (temps : String → ℚ) : TimeEmphasis :=
  if pyAllAscending (seq_full temps) then TimeEmphasis.green
  else if pyAllAscending (seq_part temps) then TimeEmphasis.yellow
  else TimeEmphasis.plain

/-! ## Marine-text phrase highlighting (insecure2 `display_marine_forecasts`)

`text.replace("STRONG WIND WARNING IN EFFECT", RED + ... + RESET)`, then
`re.sub(r"(inflow.*?northern sections)", GREEN..., flags=IGNORECASE)`, then
the same for `outflow.*?southern sections` in blue.  The two regexes are a
literal, a lazy gap (`.*?`, which matches any character except newline), and
a second literal; `re.sub` rewrites every non-overlapping match, scanning
left to right and resuming after each match.  Both loops below recurse on a
fuel argument so that they stay structurally recursive; the initial fuel is
the string length, which never runs out because every step consumes at least
one character (all the patterns used are non-empty). -/

/-- ANSI escape for red. -/
def H_RED : String := "\x1b[91m"

/-- ANSI escape for green. -/
def H_GREEN : String := "\x1b[92m"

/-- ANSI escape for yellow. -/
def H_YELLOW : String := "\x1b[93m"

/-- ANSI escape for blue. -/
def H_BLUE : String := "\x1b[94m"

/-- ANSI reset. -/
def H_RESET : String := "\x1b[0m"

/-- The warning phrase replaced literally. -/
def warnText : String := "STRONG WIND WARNING IN EFFECT"

/-- Python `s.replace(pat, rep)` for non-empty `pat`: replace every
non-overlapping occurrence, scanning left to right. -/
def replaceAllF (pat rep : List Char) : ℕ → List Char → List Char
  | _, [] => []
  | 0, s => s
  | fuel + 1, c :: cs =>
    if startsWithExact pat (c :: cs) then
      rep ++ replaceAllF pat rep fuel ((c :: cs).drop pat.length)
    else c :: replaceAllF pat rep fuel cs

/-- `s.replace(pat, rep)` with the fuel supplied. -/
def pyReplaceAll (pat rep s : List Char) : List Char := replaceAllF pat rep s.length s

/-- Matching the tail `.*?lit2` of the lazy regex against `s` (with
`re.IGNORECASE`; `lit2` is given in lowercase): find the *shortest* gap, i.e.
the first position at which `lit2` matches, without letting the gap cross a
newline (`.` does not match `'\n'`).  Returns the gap, the matched occurrence
of `lit2` in its original case, and the rest of the string. -/
def findEndCI (lit2 : List Char) : List Char → Option (List Char × List Char × List Char)
  | [] => if startsWithCI lit2 [] then some ([], [], []) else none
  | c :: cs =>
    if startsWithCI lit2 (c :: cs) then
      some ([], (c :: cs).take lit2.length, (c :: cs).drop lit2.length)
    else if c == '\n' then none
    else
      match findEndCI lit2 cs with
      | some (mid, m2, rest) => some (c :: mid, m2, rest)
      | none => none

/-- `re.sub(r"(lit1.*?lit2)", MARK + \1 + RESET, s, flags=re.IGNORECASE)` for
non-empty lowercase literals `lit1`, `lit2`: wrap every non-overlapping
leftmost-then-shortest match in `mark`/`reset`, preserving the original case
of the matched span, and resume scanning after the match. -/
def subLazyCIF (lit1 lit2 mark reset : List Char) : ℕ → List Char → List Char
  | _, [] => []
  | 0, s => s
  | fuel + 1, c :: cs =>
    if startsWithCI lit1 (c :: cs) then
      match findEndCI lit2 ((c :: cs).drop lit1.length) with
      | some (mid, m2, rest) =>
        mark ++ (c :: cs).take lit1.length ++ mid ++ m2 ++ reset ++
          subLazyCIF lit1 lit2 mark reset fuel rest
      | none => c :: subLazyCIF lit1 lit2 mark reset fuel cs
    else c :: subLazyCIF lit1 lit2 mark reset fuel cs

/-- The lazy case-insensitive substitution with the fuel supplied. -/
def pySubLazyCI (lit1 lit2 mark reset s : List Char) : List Char :=
  subLazyCIF lit1 lit2 mark reset s.length s

/-- Is there any match of `lit1.*?lit2` (case-insensitive, newline-free gap)
starting at any position of `s`?  The condition under which `re.sub` rewrites
anything at all. -/
def hasLazyMatchCI (lit1 lit2 : List Char) : List Char → Bool
  | [] => false
  | c :: cs =>
    (startsWithCI lit1 (c :: cs) && (findEndCI lit2 ((c :: cs).drop lit1.length)).isSome) ||
      hasLazyMatchCI lit1 lit2 cs

/-- Spec-side characterization of `str.replace(pat, rep)`, to be compared
with `pyReplaceAll`: the output decomposes into unchanged segments and
substituted spans.  `last` ends the decomposition with a tail in which `pat`
does not occur at all; `step` peels off one unchanged segment `a` in which no
occurrence of `pat` starts at any position (so the substituted occurrence is
the leftmost one), followed by one literal occurrence of `pat` replaced by
`rep`, and then continues on the text after the occurrence (non-overlapping
scanning resumes after the match).  Only occurrences of `pat` are rewritten
and all surrounding text is carried over unchanged. -/
inductive ReplaceRewrites (pat rep : List Char) : List Char → List Char → Prop where
  | last (s : List Char) (hno : occursExactL pat s = false) :
      ReplaceRewrites pat rep s s
  | step (a rest out : List Char)
      (hleft : ∀ a1 a2, a = a1 ++ a2 → a2 ≠ [] →
        startsWithExact pat (a2 ++ pat ++ rest) = false)
      (hrest : ReplaceRewrites pat rep rest out) :
      ReplaceRewrites pat rep (a ++ pat ++ rest) (a ++ rep ++ out)

/-- Spec-side characterization of
`re.sub(r"(lit1.*?lit2)", mark + \1 + reset, s, flags=re.IGNORECASE)`, to be
compared with `pySubLazyCI`: the output decomposes into unchanged segments
and wrapped spans.  `last` ends the decomposition with a tail containing no
match at all; `step` peels off one unchanged segment `a` admitting no match
start at any of its positions (leftmostness), then one wrapped span
`o1 ++ mid ++ m2` where `o1` is a case-insensitive occurrence of `lit1`,
`m2` is a case-insensitive occurrence of `lit2`, the gap `mid` contains no
newline (`.` does not match a newline) and admits no earlier occurrence of
`lit2` (non-greedy: the span ends at the first possible occurrence, so the
match is shortest), and continues after the span (non-overlapping scanning
resumes after each match).  Only the matched spans are wrapped, in their
original case, and all surrounding text is carried over unchanged. -/
inductive LazyRewrites (l1 l2 mk rs : List Char) : List Char → List Char → Prop where
  | last (s : List Char) (hno : hasLazyMatchCI l1 l2 s = false) :
      LazyRewrites l1 l2 mk rs s s
  | step (a o1 mid m2 rest out : List Char)
      (hleft : ∀ a1 a2, a = a1 ++ a2 → a2 ≠ [] →
        (startsWithCI l1 (a2 ++ o1 ++ mid ++ m2 ++ rest) &&
          (findEndCI l2 ((a2 ++ o1 ++ mid ++ m2 ++ rest).drop l1.length)).isSome) = false)
      (ho1 : o1.length = l1.length)
      (hm1 : startsWithCI l1 (o1 ++ mid ++ m2 ++ rest) = true)
      (hm2len : m2.length = l2.length)
      (hm2 : startsWithCI l2 (m2 ++ rest) = true)
      (hshort : ∀ mid1 mid2, mid = mid1 ++ mid2 → mid2 ≠ [] →
        startsWithCI l2 (mid2 ++ m2 ++ rest) = false)
      (hnl : '\n' ∉ mid)
      (hrest : LazyRewrites l1 l2 mk rs rest out) :
      LazyRewrites l1 l2 mk rs (a ++ o1 ++ mid ++ m2 ++ rest)
        (a ++ mk ++ o1 ++ mid ++ m2 ++ rs ++ out)

/-- The phrase-highlighting pipeline of `display_marine_forecasts`,
lines 91-107: warning literal in red, then `inflow.*?northern sections` in
green, then `outflow.*?southern sections` in blue. -/
def highlightMarine (s : String) : String :=
  ofL (pySubLazyCI (strL ("outflow")) (strL ("southern sections"))
        (strL H_BLUE) (strL H_RESET)
    (pySubLazyCI (strL ("inflow")) (strL ("northern sections"))
        (strL H_GREEN) (strL H_RESET)
      (pyReplaceAll (strL warnText) (strL (H_RED ++ warnText ++ H_RESET)) (strL s))))

/-! ## Marine forecast feed (`get_marine_forecast`, `display_marine_forecasts`)

The Atom feed is modelled as the list of entries the XML parse yields; the
`requests.get` + `ET.fromstring` step is injected as an `Except` so that any
raised exception lands in the `error` case (the bare `except Exception`
of the source).  `datetime.strptime(published, "%Y-%m-%dT%H:%M:%SZ")`
followed by `strftime("%Y-%m-%d %H:%M")` is modelled with CPython's
`_strptime` leniency: `%Y` is exactly four digits, the other fields accept
one or two digits within their ranges, the whole string must be consumed,
and the `datetime` constructor additionally validates the calendar
(year ≥ 1, day within the month, seconds ≤ 59). -/

/-- One Atom feed entry, after XML field extraction. -/
structure FeedEntry where
  title : String
  summary : String
  published : String
  deriving DecidableEq

/-- One parsed marine forecast, the dict appended by `get_marine_forecast`. -/
structure MarineForecast where
  Title : String
  Forecast : String
  Published : String
  deriving DecidableEq

/-- Numeric value of a digit character. -/
def digitVal (c : Char) : ℕ := c.toNat - '0'.toNat

/-- `%Y`: exactly four digits. -/
def parse4 : List Char → Option (ℕ × List Char)
  | a :: b :: c :: d :: rest =>
    if a.isDigit && b.isDigit && c.isDigit && d.isDigit then
      some (((digitVal a * 10 + digitVal b) * 10 + digitVal c) * 10 + digitVal d, rest)
    else none
  | _ => none

/-- A one-or-two-digit field whose value must lie in `lo..hi`; because every
such field in the format string is followed by a non-digit literal, taking
the maximal run of at most two digits is equivalent to CPython's regex
alternation for `%m`, `%d`, `%H`, `%M`, `%S`. -/
def parse2 (lo hi : ℕ) : List Char → Option (ℕ × List Char)
  | a :: b :: rest =>
    if a.isDigit && b.isDigit then
      let v := digitVal a * 10 + digitVal b
      if lo ≤ v && v ≤ hi then some (v, rest) else none
    else if a.isDigit then
      let v := digitVal a
      if lo ≤ v && v ≤ hi then some (v, b :: rest) else none
    else none
  | [a] =>
    if a.isDigit then
      let v := digitVal a
      if lo ≤ v && v ≤ hi then some (v, []) else none
    else none
  | [] => none

/-- Expect a literal character. -/
def expectChar (c : Char) : List Char → Option (List Char)
  | [] => none
  | a :: rest => if a == c then some rest else none

/-- Gregorian leap year, as the `datetime` module computes it. -/
def isLeap (y : ℕ) : Bool := (y % 4 == 0 && y % 100 != 0) || y % 400 == 0

/-- Days in a month, as validated by the `datetime` constructor. -/
def daysInMonth (y m : ℕ) : ℕ :=
  if m == 2 then (if isLeap y then 29 else 28)
  else if m == 4 || m == 6 || m == 9 || m == 11 then 30
  else 31

/-- `datetime.strptime(s, "%Y-%m-%dT%H:%M:%SZ")`: the parsed
(year, month, day, hour, minute) on success, `none` where CPython raises
`ValueError` (bad shape, leftover characters, or calendar validation). -/
def parsePublished (s : List Char) : Option (ℕ × ℕ × ℕ × ℕ × ℕ) := do
  let (y, s) ← parse4 s
  let s ← expectChar '-' s
  let (mo, s) ← parse2 1 12 s
  let s ← expectChar '-' s
  let (d, s) ← parse2 1 31 s
  let s ← expectChar 'T' s
  let (h, s) ← parse2 0 23 s
  let s ← expectChar ':' s
  let (mi, s) ← parse2 0 59 s
  let s ← expectChar ':' s
  let (sec, s) ← parse2 0 61 s
  let s ← expectChar 'Z' s
  match s with
  | [] =>
    if 1 ≤ y && d ≤ daysInMonth y mo && sec ≤ 59 then some (y, mo, d, h, mi)
    else none
  | _ :: _ => none

/-- Zero-pad to two digits, as `strftime` does for `%m %d %H %M`. -/
def pad2 (n : ℕ) : String := if n < 10 then "0" ++ toString n else toString n

/-- Zero-pad to four digits, as `strftime` does for `%Y`. -/
def pad4 (n : ℕ) : String :=
  if n < 10 then "000" ++ toString n
  else if n < 100 then "00" ++ toString n
  else if n < 1000 then "0" ++ toString n
  else toString n

/-- The `published` formatting of `get_marine_forecast`, lines 66-70: parse
with `strptime` and reformat as `"%Y-%m-%d %H:%M"`; on any `ValueError` the
bare `except` keeps the raw string. -/
def fmtPublished (s : String) : String :=
  match parsePublished (strL s) with
  | some (y, mo, d, h, mi) =>
    pad4 y ++ "-" ++ pad2 mo ++ "-" ++ pad2 d ++ " " ++ pad2 h ++ ":" ++ pad2 mi
  | none => s

/-- The per-entry record construction, lines 63-73: first line of the summary
before `'<br/>'`, stripped, plus the formatted publication time. -/
def entryToForecast (e : FeedEntry) : MarineForecast :=
  { Title := e.title
    Forecast := ofL (pyStrip (beforeFirst (strL ("<br/>")) (strL e.summary)))
    Published := fmtPublished e.published }

/-- The filter applied to each entry: dropped when the lowered title starts
with `'extended forecast'`, retained only when the region string occurs in
the title. -/
def keepsEntry (region : String) (e : FeedEntry) : Bool :=
  !startsWithCI (strL ("extended forecast")) (strL e.title) &&
    occursExactL (strL region) (strL e.title)

/-- The entry loop of `get_marine_forecast`, lines 57-73. -/
def get_marine_entries (region : String) : List FeedEntry → List MarineForecast
  | [] => []
  | e :: rest =>
    if startsWithCI (strL ("extended forecast")) (strL e.title) then
      get_marine_entries region rest
    else if occursExactL (strL region) (strL e.title) then
      entryToForecast e :: get_marine_entries region rest
    else get_marine_entries region rest

/-- `get_marine_forecast(rss_url, region_filter)`: the fetch + XML parse is
injected as `fetched`; the surrounding `try/except Exception` of lines 51-77
turns any raised error into the empty list (after printing a message). -/
def get_marine_forecast (fetched : Except String (List FeedEntry)) (region : String) :
    List MarineForecast :=
  match fetched with
  | Except.ok entries => get_marine_entries region entries
  | Except.error _ => []

/-- The line printed by the `except` branch of `get_marine_forecast`. -/
def marineErrorLines : Except String (List FeedEntry) → List String
  | Except.error e => ["Error retrieving marine forecast: " ++ e]
  | Except.ok _ => []

/-- The lines printed for one forecast entry, lines 108-112. -/
def renderForecastLines (fc : MarineForecast) : List String :=
  ["", fc.Title, ofL (List.replicate 75 '-'),
   "Forecast: " ++ highlightMarine fc.Forecast,
   "Published: " ++ fc.Published]

/-- `display_marine_forecasts()`, lines 80-112, as the list of printed lines:
header, separator, any error message from the fetch, then either the
"no forecasts" notice or the rendered entries. -/
def display_marine_forecasts (fetched : Except String (List FeedEntry)) : List String :=
  ["", "Forecast for Today, Tonight and Sunday - Howe Sound",
   ofL (List.replicate 75 '=')] ++
  marineErrorLines fetched ++
  (match get_marine_forecast fetched ("Howe Sound") with
   | [] => ["No marine forecasts available for Howe Sound.", ""]
   | fc :: rest => (fc :: rest).flatMap renderForecastLines)

/-- `main()` at the granularity C9 needs: the marine section is printed
first, then the wind/temperature table (whose lines are passed in as
`tableLines`, computed independently of the marine outcome). -/
def mainReport (fetched : Except String (List FeedEntry)) (tableLines : List String) :
    List String :=
  display_marine_forecasts fetched ++ tableLines

/-! ## Helper lemmas -/

theorem argmin_eq_none_iff (l : List ℚ) : argmin l = none ↔ l = [] := by
  cases l with
  | nil => simp [argmin]
  | cons x xs =>
    have h1 : argmin (x :: xs) ≠ none := by
      rw [show argmin (x :: xs) =
          (match argmin xs with
           | none => some 0
           | some j => if x ≤ xs.getD j 0 then some 0 else some (j + 1)) from rfl]
      cases h' : argmin xs with
      | none => simp
      | some j =>
        show ¬(if x ≤ xs.getD j 0 then (some 0 : Option ℕ) else some (j + 1)) = none
        by_cases hle : x ≤ xs.getD j 0
        · rw [if_pos hle]; simp
        · rw [if_neg hle]; simp
    exact ⟨fun h => absurd h h1, fun h => by simp at h⟩

theorem argmin_spec (l : List ℚ) (i : ℕ) (h : argmin l = some i) :
    i < l.length ∧ (∀ j, j < l.length → l.getD i 0 ≤ l.getD j 0) ∧
      (∀ j, j < i → l.getD i 0 < l.getD j 0) := by
  induction l generalizing i with
  | nil => simp [argmin] at h
  | cons x xs ih =>
    rw [show argmin (x :: xs) =
        (match argmin xs with
         | none => some 0
         | some j => if x ≤ xs.getD j 0 then some 0 else some (j + 1)) from rfl] at h
    cases hxs : argmin xs with
    | none =>
      have hnil : xs = [] := (argmin_eq_none_iff xs).mp hxs
      rw [hxs] at h
      replace h : (some 0 : Option ℕ) = some i := h
      have hi : i = 0 := by injection h with h'; omega
      subst hi
      subst hnil
      refine ⟨by simp, ?_, ?_⟩
      · intro j hj
        simp only [List.length_cons, List.length_nil] at hj
        have hj0 : j = 0 := by omega
        subst hj0
        exact le_refl _
      · intro j hj
        exact absurd hj (Nat.not_lt_zero j)
    | some k =>
      rw [hxs] at h
      replace h : (if x ≤ xs.getD k 0 then some 0 else some (k + 1)) = some i := h
      obtain ⟨hk_lt, hk_min, hk_first⟩ := ih k hxs
      by_cases hle : x ≤ xs.getD k 0
      · rw [if_pos hle] at h
        have hi : i = 0 := by injection h with h'; omega
        subst hi
        refine ⟨by simp, ?_, ?_⟩
        · intro j hj
          cases j with
          | zero => exact le_refl _
          | succ j' =>
            simp only [List.getD_cons_zero, List.getD_cons_succ]
            refine le_trans hle (hk_min j' ?_)
            simp only [List.length_cons] at hj
            omega
        · intro j hj
          exact absurd hj (Nat.not_lt_zero j)
      · rw [if_neg hle] at h
        have hi : i = k + 1 := by injection h with h'; omega
        subst hi
        refine ⟨by simp only [List.length_cons]; omega, ?_, ?_⟩
        · intro j hj
          cases j with
          | zero =>
            simp only [List.getD_cons_zero, List.getD_cons_succ]
            exact le_of_lt (lt_of_not_le hle)
          | succ j' =>
            simp only [List.getD_cons_succ]
            refine hk_min j' ?_
            simp only [List.length_cons] at hj
            omega
        · intro j hj
          cases j with
          | zero =>
            simp only [List.getD_cons_zero, List.getD_cons_succ]
            exact lt_of_not_le hle
          | succ j' =>
            simp only [List.getD_cons_succ]
            exact hk_first j' (by omega)

theorem argmin_isSome_of_ne_nil (l : List ℚ) (h : l ≠ []) : ∃ i, argmin l = some i := by
  cases hl : argmin l with
  | none => exact absurd ((argmin_eq_none_iff l).mp hl) h
  | some i => exact ⟨i, rfl⟩

theorem zipWith_getD (f : ℚ → ℚ → ℚ) (l1 l2 : List ℚ) (j : ℕ)
    (h1 : j < l1.length) (h2 : j < l2.length) :
    (List.zipWith f l1 l2).getD j 0 = f (l1.getD j 0) (l2.getD j 0) := by
  induction l1 generalizing l2 j with
  | nil => simp at h1
  | cons a l1 ih =>
    cases l2 with
    | nil => simp at h2
    | cons b l2 =>
      cases j with
      | zero => simp
      | succ j' =>
        simp only [List.zipWith_cons_cons, List.getD_cons_succ]
        exact ih l2 j' (by simpa using h1) (by simpa using h2)

theorem d2List_length (lats lons : List ℚ) (lat0 lon0 : ℚ) :
    (d2List lats lons lat0 lon0).length = min lats.length lons.length := by
  simp [d2List]

theorem d2List_getD (lats lons : List ℚ) (lat0 lon0 : ℚ) (j : ℕ)
    (h1 : j < lats.length) (h2 : j < lons.length) :
    (d2List lats lons lat0 lon0).getD j 0 =
      sqDist (lats.getD j 0) (lons.getD j 0) lat0 lon0 :=
  zipWith_getD (fun la lo => (la - lat0) * (la - lat0) + (lo - lon0) * (lo - lon0))
    lats lons j h1 h2

/-! ## Claim theorems -/

/-- Claim C1: for every gridded field (value, latitude, longitude arrays of
identical shape) and every target coordinate, the nearest-cell sampler
returns the field value at the index of the global minimum of the squared
Euclidean distance `(lat - lat0)^2 + (lon - lon0)^2` over the full grid, and
on ties it returns the first minimum in row-major scan order (every strictly
earlier index has strictly larger distance); being a pure function of its
inputs, the result is deterministic for identical inputs. -/
theorem c1_nearest_cell_sampler (vals lats lons : List ℚ) (lat0 lon0 : ℚ)
    (hlat : lats.length = vals.length) (hlon : lons.length = vals.length)
    (hne : vals ≠ []) :
    ∃ i, i < vals.length ∧
      argmin (d2List lats lons lat0 lon0) = some i ∧
      nearestSample vals lats lons lat0 lon0 = some (vals.getD i 0) ∧
      (∀ j, j < vals.length →
        sqDist (lats.getD i 0) (lons.getD i 0) lat0 lon0 ≤
          sqDist (lats.getD j 0) (lons.getD j 0) lat0 lon0) ∧
      (∀ j, j < i →
        sqDist (lats.getD i 0) (lons.getD i 0) lat0 lon0 <
          sqDist (lats.getD j 0) (lons.getD j 0) lat0 lon0) := by
  have hd2len : (d2List lats lons lat0 lon0).length = vals.length := by
    rw [d2List_length, hlat, hlon, min_self]
  have hvpos : 0 < vals.length := List.length_pos.mpr hne
  have hd2ne : d2List lats lons lat0 lon0 ≠ [] := by
    intro hcon
    rw [hcon] at hd2len
    simp at hd2len
    omega
  obtain ⟨i, hi⟩ := argmin_isSome_of_ne_nil _ hd2ne
  obtain ⟨hlt, hmin, hfirst⟩ := argmin_spec _ i hi
  rw [hd2len] at hlt
  have hbridge : ∀ j, j < vals.length →
      (d2List lats lons lat0 lon0).getD j 0 =
        sqDist (lats.getD j 0) (lons.getD j 0) lat0 lon0 := by
    intro j hj
    exact d2List_getD lats lons lat0 lon0 j (by omega) (by omega)
  refine ⟨i, hlt, hi, ?_, ?_, ?_⟩
  · show (argmin (d2List lats lons lat0 lon0)).bind (fun k => vals.get? k) =
      some (vals.getD i 0)
    rw [hi]
    show vals.get? i = some (vals.getD i 0)
    rw [List.get?_eq_getElem?, List.getElem?_eq_getElem hlt,
      List.getD_eq_getElem vals 0 hlt]
  · intro j hj
    have := hmin j (by omega)
    rwa [hbridge i hlt, hbridge j hj] at this
  · intro j hj
    have := hfirst j hj
    rwa [hbridge i hlt, hbridge j (by omega)] at this

/-- Witness for C1: a concrete 1×3 grid whose distance field has a duplicated
minimum; the sampler takes the first minimum in scan order and returns 10. -/
theorem c1_nearest_cell_sampler_witness :
    (([(0 : ℚ), 1, 0] : List ℚ).length = ([(10 : ℚ), 20, 30] : List ℚ).length ∧
      ([(0 : ℚ), 0, 0] : List ℚ).length = ([(10 : ℚ), 20, 30] : List ℚ).length ∧
      ([(10 : ℚ), 20, 30] : List ℚ) ≠ []) ∧
    (∃ i, i < ([(10 : ℚ), 20, 30] : List ℚ).length ∧
      argmin (d2List [0, 1, 0] [0, 0, 0] 0 0) = some i ∧
      nearestSample [10, 20, 30] [0, 1, 0] [0, 0, 0] 0 0 =
        some (([(10 : ℚ), 20, 30] : List ℚ).getD i 0) ∧
      (∀ j, j < ([(10 : ℚ), 20, 30] : List ℚ).length →
        sqDist (([(0 : ℚ), 1, 0] : List ℚ).getD i 0)
            (([(0 : ℚ), 0, 0] : List ℚ).getD i 0) 0 0 ≤
          sqDist (([(0 : ℚ), 1, 0] : List ℚ).getD j 0)
            (([(0 : ℚ), 0, 0] : List ℚ).getD j 0) 0 0) ∧
      (∀ j, j < i →
        sqDist (([(0 : ℚ), 1, 0] : List ℚ).getD i 0)
            (([(0 : ℚ), 0, 0] : List ℚ).getD i 0) 0 0 <
          sqDist (([(0 : ℚ), 1, 0] : List ℚ).getD j 0)
            (([(0 : ℚ), 0, 0] : List ℚ).getD j 0) 0 0)) :=
  ⟨⟨by decide, by decide, by decide⟩,
    c1_nearest_cell_sampler [10, 20, 30] [0, 1, 0] [0, 0, 0] 0 0
      (by decide) (by decide) (by decide)⟩

theorem pyAllAscending_seven (a b c d e f g : ℚ) :
    pyAllAscending [a, b, c, d, e, f, g] = true ↔
      (a < b ∧ b < c ∧ c < d ∧ d < e ∧ e < f ∧ f < g) := by
  have h : pyAllAscending [a, b, c, d, e, f, g] =
      (decide (a < b) && (decide (b < c) && (decide (c < d) && (decide (d < e) &&
        (decide (e < f) && (decide (f < g) && true)))))) := rfl
  rw [h]
  simp

theorem pyAllAscending_four (a b c d : ℚ) :
    pyAllAscending [a, b, c, d] = true ↔ (a < b ∧ b < c ∧ c < d) := by
  have h : pyAllAscending [a, b, c, d] =
      (decide (a < b) && (decide (b < c) && (decide (c < d) && true))) := rfl
  rw [h]
  simp

/-- Claim C2: for every forecast hour's ordered per-point temperature list,
the thermal highlighter wraps the time in bright green exactly when all seven
temperatures in point order strictly increase end-to-end, otherwise in yellow
exactly when the four-point subsequence Furry, Brit, 7mesh, Whis strictly
increases, and otherwise leaves the time unwrapped; the comparisons are
strict `<` only, so an equal adjacent pair in the checked subsequence
disqualifies that category, and a fully ascending sequence gets green (the
full category), never yellow. -/
theorem c2_thermal_highlighting (t : String → ℚ) :
    (thermalEmphasis t = TimeEmphasis.green ↔
      (t ("Furry") < t ("Brit") ∧ t ("Brit") < t ("7mesh") ∧
        t ("7mesh") < t ("Cheak") ∧ t ("Cheak") < t ("Whis") ∧
        t ("Whis") < t ("Pemb") ∧ t ("Pemb") < t ("Lill"))) ∧
    (thermalEmphasis t = TimeEmphasis.yellow ↔
      (¬(t ("Furry") < t ("Brit") ∧ t ("Brit") < t ("7mesh") ∧
          t ("7mesh") < t ("Cheak") ∧ t ("Cheak") < t ("Whis") ∧
          t ("Whis") < t ("Pemb") ∧ t ("Pemb") < t ("Lill")) ∧
        (t ("Furry") < t ("Brit") ∧ t ("Brit") < t ("7mesh") ∧
          t ("7mesh") < t ("Whis")))) ∧
    (thermalEmphasis t = TimeEmphasis.plain ↔
      (¬(t ("Furry") < t ("Brit") ∧ t ("Brit") < t ("7mesh") ∧
          t ("7mesh") < t ("Cheak") ∧ t ("Cheak") < t ("Whis") ∧
          t ("Whis") < t ("Pemb") ∧ t ("Pemb") < t ("Lill")) ∧
        ¬(t ("Furry") < t ("Brit") ∧ t ("Brit") < t ("7mesh") ∧
          t ("7mesh") < t ("Whis")))) := by
  have hsf : seq_full t =
      [t ("Furry"), t ("Brit"), t ("7mesh"), t ("Cheak"),
        t ("Whis"), t ("Pemb"), t ("Lill")] := rfl
  have hsp : seq_part t = [t ("Furry"), t ("Brit"), t ("7mesh"), t ("Whis")] := rfl
  have H7 := pyAllAscending_seven (t ("Furry")) (t ("Brit")) (t ("7mesh"))
    (t ("Cheak")) (t ("Whis")) (t ("Pemb")) (t ("Lill"))
  have H4 := pyAllAscending_four (t ("Furry")) (t ("Brit")) (t ("7mesh")) (t ("Whis"))
  rw [show thermalEmphasis t =
      (if pyAllAscending (seq_full t) then TimeEmphasis.green
       else if pyAllAscending (seq_part t) then TimeEmphasis.yellow
       else TimeEmphasis.plain) from rfl, hsf, hsp]
  cases h7 : pyAllAscending [t ("Furry"), t ("Brit"), t ("7mesh"), t ("Cheak"),
      t ("Whis"), t ("Pemb"), t ("Lill")] with
  | true =>
    have hc7 := H7.mp h7
    rw [if_pos rfl]
    refine ⟨iff_of_true rfl hc7, ?_, ?_⟩
    · constructor
      · intro h; cases h
      · rintro ⟨hn, _⟩; exact absurd hc7 hn
    · constructor
      · intro h; cases h
      · rintro ⟨hn, _⟩; exact absurd hc7 hn
  | false =>
    have hn7 : ¬(t ("Furry") < t ("Brit") ∧ t ("Brit") < t ("7mesh") ∧
        t ("7mesh") < t ("Cheak") ∧ t ("Cheak") < t ("Whis") ∧
        t ("Whis") < t ("Pemb") ∧ t ("Pemb") < t ("Lill")) := by
      intro hc
      rw [H7.mpr hc] at h7
      cases h7
    rw [if_neg (by simp [h7])]
    cases h4 : pyAllAscending [t ("Furry"), t ("Brit"), t ("7mesh"), t ("Whis")] with
    | true =>
      have hc4 := H4.mp h4
      rw [if_pos rfl]
      refine ⟨?_, iff_of_true rfl ⟨hn7, hc4⟩, ?_⟩
      · constructor
        · intro h; cases h
        · intro hc; exact absurd hc hn7
      · constructor
        · intro h; cases h
        · rintro ⟨_, hn4⟩; exact absurd hc4 hn4
    | false =>
      have hn4 : ¬(t ("Furry") < t ("Brit") ∧ t ("Brit") < t ("7mesh") ∧
          t ("7mesh") < t ("Whis")) := by
        intro hc
        rw [H4.mpr hc] at h4
        cases h4
      rw [if_neg (by simp [h4])]
      refine ⟨?_, ?_, iff_of_true rfl ⟨hn7, hn4⟩⟩
      · constructor
        · intro h; cases h
        · intro hc; exact absurd hc hn7
      · constructor
        · intro h; cases h
        · rintro ⟨_, hc4⟩; exact absurd hc4 hn4

/-- Claim C3: for every UTC now, the candidate run is today at 12:00 UTC when
`now.hour >= 12` and today at 00:00 UTC otherwise; if the hour-0 probe raises
any exception or returns a non-200 status, the selected run is exactly the
candidate minus 12 hours, used unconditionally with no second fallback or
retry and no error escaping `find_best_run`; if the probe returns 200 the
candidate itself is returned. -/
theorem c3_run_selection (now : UTCInstant) (status : ℕ) (hs : status ≠ 200) (e : String) :
    find_best_run (Except.error e) now = candidate_run now - 12 ∧
    find_best_run (Except.ok status) now = candidate_run now - 12 ∧
    find_best_run (Except.ok 200) now = candidate_run now ∧
    candidate_run now = now.day * 24 + (if 12 ≤ now.hour then 12 else 0) := by
  refine ⟨rfl, ?_, ?_, rfl⟩
  · show (if status ≠ 200 then candidate_run now - 12 else candidate_run now) =
      candidate_run now - 12
    rw [if_pos hs]
  · show (if (200 : ℕ) ≠ 200 then candidate_run now - 12 else candidate_run now) =
      candidate_run now
    rw [if_neg (by omega)]

/-- Witness for C3: a concrete afternoon instant with a 404 probe falls back
by exactly one cycle; the same instant with a 200 probe keeps the candidate. -/
theorem c3_run_selection_witness :
    (404 : ℕ) ≠ 200 ∧
    (find_best_run (Except.error ("timeout")) ⟨20000, 15⟩ =
        candidate_run ⟨20000, 15⟩ - 12 ∧
      find_best_run (Except.ok 404) ⟨20000, 15⟩ = candidate_run ⟨20000, 15⟩ - 12 ∧
      find_best_run (Except.ok 200) ⟨20000, 15⟩ = candidate_run ⟨20000, 15⟩ ∧
      candidate_run ⟨20000, 15⟩ =
        (20000 : ℤ) * 24 + (if 12 ≤ (15 : ℕ) then 12 else 0)) :=
  ⟨by decide, c3_run_selection ⟨20000, 15⟩ 404 (by decide) ("timeout")⟩

/-- Claim C4 is violated by the code (`code_bug`): when the second download
raises after the first succeeded, the first temporary file is never removed;
the `try/finally` only protects extraction, not the downloads themselves.
This theorem evaluates the iteration at the failing input (U download
succeeds, V download raises): the error propagates while file 0 is still on
disk.  The cleanup the claim describes does hold on the paths where all three
downloads succeed: whatever the extraction outcome, no file survives. -/
theorem c4_tempfile_leak :
    (hour_iteration true false true true ⟨[], 0⟩).1 = Except.error () ∧
    (hour_iteration true false true true ⟨[], 0⟩).2.files = [0] ∧
    (∀ extractOk, (hour_iteration true true true extractOk ⟨[], 0⟩).2.files = []) := by
  refine ⟨rfl, rfl, ?_⟩
  intro extractOk
  cases extractOk <;> rfl

theorem compassIdx_neg30 : compassIdx ((-30 : ℚ)) = 0 := by
  simp only [compassIdx, pytrunc]
  rw [if_pos (by norm_num),
    show ⌈((-30 : ℚ) + 11.25) / 22.5⌉ = 0 from by rw [Int.ceil_eq_iff]; norm_num]
  decide

theorem specCompassIdx_neg30 : specCompassIdx (-30) = 15 := by
  simp only [specCompassIdx]
  rw [show round ((-30 : ℚ) / 22.5) = -1 from by
    rw [round_eq, Int.floor_eq_iff]; norm_num]
  decide

/-- Counterexample to claim C5 as stated: at degree value -30, the code's
index `int((-30 + 11.25) / 22.5) % 16` is 0, so `deg_to_compass(-30)` is "N",
while the spec formula `round(-30 / 22.5) mod 16` (the nearest integer to
-4/3 is -1 under every rounding convention) gives index 15, i.e. "NNW":
Python `int` truncates toward zero while `round` goes to the nearest integer,
and the two disagree below -11.25 degrees. -/
theorem c5_round_formula_counterexample :
    deg_to_compass ((-30 : ℚ)) = some ("N") ∧
    specCompassIdx (-30) = 15 ∧
    pyListGet COMPASS_POINTS (specCompassIdx (-30)) = some ("NNW") ∧
    some ("N") ≠ some ("NNW") := by
  refine ⟨?_, specCompassIdx_neg30, ?_, by decide⟩
  · simp only [deg_to_compass]
    rw [compassIdx_neg30]
    rfl
  · rw [specCompassIdx_neg30]
    rfl

/-- Claim C5 as amended: for every degree value that is at least 0 (which
covers every value `dir_met` can produce), `deg_to_compass` maps it to one of
the 16 ordered points starting at N via `round(degrees / 22.5) mod 16`
(round half up), and in particular `deg_to_compass(0)` = "N",
`deg_to_compass(359)` = "N", `deg_to_compass(180)` = "S",
`deg_to_compass(11.24)` = "N", and `deg_to_compass(11.26)` = "NNE". -/
theorem c5_compass_conversion_amended (deg : ℚ) (hdeg : 0 ≤ deg) :
    compassIdx deg = specCompassIdx deg ∧
    deg_to_compass deg = pyListGet COMPASS_POINTS (specCompassIdx deg) ∧
    deg_to_compass (0 : ℚ) = some ("N") ∧
    deg_to_compass (359 : ℚ) = some ("N") ∧
    deg_to_compass (180 : ℚ) = some ("S") ∧
    deg_to_compass (11.24 : ℚ) = some ("N") ∧
    deg_to_compass (11.26 : ℚ) = some ("NNE") := by
  have hidx : compassIdx deg = specCompassIdx deg := by
    simp only [compassIdx, pytrunc, specCompassIdx]
    rw [if_neg (not_lt.mpr (div_nonneg (by linarith) (by norm_num))), round_eq,
      show (deg + 11.25) / 22.5 = deg / 22.5 + 1 / 2 from by ring]
  refine ⟨hidx, ?_, ?_, ?_, ?_, ?_, ?_⟩
  · simp only [deg_to_compass]
    rw [hidx]
  · simp only [deg_to_compass, compassIdx, pytrunc]
    rw [if_neg (by norm_num),
      show ⌊((0 : ℚ) + 11.25) / 22.5⌋ = 0 from by rw [Int.floor_eq_iff]; norm_num]
    rfl
  · simp only [deg_to_compass, compassIdx, pytrunc]
    rw [if_neg (by norm_num),
      show ⌊((359 : ℚ) + 11.25) / 22.5⌋ = 16 from by rw [Int.floor_eq_iff]; norm_num]
    rfl
  · simp only [deg_to_compass, compassIdx, pytrunc]
    rw [if_neg (by norm_num),
      show ⌊((180 : ℚ) + 11.25) / 22.5⌋ = 8 from by rw [Int.floor_eq_iff]; norm_num]
    rfl
  · simp only [deg_to_compass, compassIdx, pytrunc]
    rw [if_neg (by norm_num),
      show ⌊((11.24 : ℚ) + 11.25) / 22.5⌋ = 0 from by rw [Int.floor_eq_iff]; norm_num]
    rfl
  · simp only [deg_to_compass, compassIdx, pytrunc]
    rw [if_neg (by norm_num),
      show ⌊((11.26 : ℚ) + 11.25) / 22.5⌋ = 1 from by rw [Int.floor_eq_iff]; norm_num]
    rfl

/-- Witness for the amended C5, at degree 180. -/
theorem c5_compass_conversion_amended_witness :
    (0 : ℚ) ≤ 180 ∧
    (compassIdx (180 : ℚ) = specCompassIdx 180 ∧
      deg_to_compass (180 : ℚ) = pyListGet COMPASS_POINTS (specCompassIdx 180) ∧
      deg_to_compass (0 : ℚ) = some ("N") ∧
      deg_to_compass (359 : ℚ) = some ("N") ∧
      deg_to_compass (180 : ℚ) = some ("S") ∧
      deg_to_compass (11.24 : ℚ) = some ("N") ∧
      deg_to_compass (11.26 : ℚ) = some ("NNE")) :=
  ⟨by decide, c5_compass_conversion_amended 180 (by decide)⟩

theorem fmod_bounds (x m : ℝ) (hm : 0 < m) : 0 ≤ fmod x m ∧ fmod x m < m := by
  have hfl : ((⌊x / m⌋ : ℤ) : ℝ) ≤ x / m := Int.floor_le _
  have hfu : x / m < (⌊x / m⌋ : ℝ) + 1 := Int.lt_floor_add_one _
  have h1 : ((⌊x / m⌋ : ℤ) : ℝ) * m ≤ x := (le_div_iff₀ hm).mp hfl
  have h2 : x < (((⌊x / m⌋ : ℤ) : ℝ) + 1) * m := (div_lt_iff₀ hm).mp hfu
  constructor
  · simp only [fmod]
    nlinarith
  · simp only [fmod]
    nlinarith

/-- Claim C6: for every wind-component pair `(u, v)` the derived direction is
`(degrees(atan2(-u, -v)) + 360) % 360` (the meteorological "from"
convention); `(u, v) = (0, -1)` yields direction 0 (wind from north) and
`(u, v) = (-1, 0)` yields direction 90 (wind from east); the speed is
`hypot(u, v)` multiplied by 1.94384 (m/s to knots). -/
theorem c6_wind_derivation :
    dir_met 0 (-1) = 0 ∧
    dir_met (-1) 0 = 90 ∧
    (∀ u v : ℝ, dir_met u v = fmod (degrees (atan2 (-u) (-v)) + 360) 360) ∧
    (∀ u v : ℝ, speed_knots u v = hypot u v * 1.94384) ∧
    (∀ u v : ℝ, hypot u v = Real.sqrt (u ^ 2 + v ^ 2)) := by
  refine ⟨?_, ?_, fun u v => rfl, fun u v => rfl, fun u v => rfl⟩
  · have ha : atan2 (-(0 : ℝ)) (-(-1 : ℝ)) = 0 := by
      simp only [atan2, neg_zero, neg_neg]
      rw [if_pos (by norm_num)]
      norm_num [Real.arctan_zero]
    simp only [dir_met, ha, degrees]
    rw [zero_mul, zero_div]
    simp only [fmod, zero_add]
    rw [show (360 : ℝ) / 360 = 1 from by norm_num, Int.floor_one]
    norm_num
  · have ha : atan2 (-(-1 : ℝ)) (-(0 : ℝ)) = Real.pi / 2 := by
      simp only [atan2, neg_neg, neg_zero]
      rw [if_neg (by norm_num), if_neg (by norm_num), if_pos (by norm_num)]
    simp only [dir_met, ha, degrees]
    rw [show Real.pi / 2 * 180 / Real.pi = 90 from by
      field_simp
      ring]
    simp only [fmod]
    rw [show (90 : ℝ) + 360 = 450 from by norm_num,
      show ⌊(450 : ℝ) / 360⌋ = 1 from by rw [Int.floor_eq_iff]; norm_num]
    norm_num

theorem pyListGet_COMPASS_isSome (i : ℤ) (h0 : 0 ≤ i) (h16 : i < 16) :
    (pyListGet COMPASS_POINTS i).isSome = true := by
  simp only [pyListGet]
  rw [if_pos h0]
  have hi : i.toNat < COMPASS_POINTS.length := by
    rw [show COMPASS_POINTS.length = 16 from rfl]
    omega
  rw [List.get?_eq_getElem?, List.getElem?_eq_getElem hi]
  rfl

/-- Claim C10: for every real degree value, including negative values and
values of 360 or more, the index `int((deg + 11.25) / 22.5) % 16` computed by
`deg_to_compass` lies in `0..15`, so the lookup into the 16-entry compass
list is in bounds and the function totally returns one of the 16 points; and
`dir_met` always lands in `[0, 360)`, so the displayed compass direction
`deg_to_compass(dir_met(u, v))` is defined for every wind-component pair. -/
theorem c10_compass_lookup_total (deg : ℝ) (u v : ℝ) :
    0 ≤ compassIdx deg ∧ compassIdx deg < 16 ∧
    (deg_to_compass deg).isSome = true ∧
    0 ≤ dir_met u v ∧ dir_met u v < 360 ∧
    (deg_to_compass (dir_met u v)).isSome = true := by
  have hnn : ∀ d : ℝ, 0 ≤ compassIdx d := by
    intro d
    show 0 ≤ pytrunc ((d + 11.25) / 22.5) % 16
    exact Int.emod_nonneg _ (by norm_num)
  have hlt : ∀ d : ℝ, compassIdx d < 16 := by
    intro d
    show pytrunc ((d + 11.25) / 22.5) % 16 < 16
    exact Int.emod_lt_of_pos _ (by norm_num)
  have hbd := fmod_bounds (degrees (atan2 (-u) (-v)) + 360) 360 (by norm_num)
  exact ⟨hnn deg, hlt deg, pyListGet_COMPASS_isSome _ (hnn deg) (hlt deg),
    hbd.1, hbd.2, pyListGet_COMPASS_isSome _ (hnn _) (hlt _)⟩

theorem bor_false_left {a b : Bool} (h : (a || b) = false) : a = false := by
  cases a <;> cases b <;> simp_all

theorem bor_false_right {a b : Bool} (h : (a || b) = false) : b = false := by
  cases a <;> cases b <;> simp_all

theorem replaceAllF_id (pat rep : List Char) (s : List Char) :
    ∀ fuel : ℕ, occursExactL pat s = false → replaceAllF pat rep fuel s = s := by
  induction s with
  | nil => intro fuel _; cases fuel <;> rfl
  | cons c cs ih =>
    intro fuel h
    replace h : (startsWithExact pat (c :: cs) || occursExactL pat cs) = false := h
    have h1 := bor_false_left h
    have h2 := bor_false_right h
    cases fuel with
    | zero => rfl
    | succ n =>
      show (if startsWithExact pat (c :: cs) = true then
          rep ++ replaceAllF pat rep n ((c :: cs).drop pat.length)
        else c :: replaceAllF pat rep n cs) = c :: cs
      rw [if_neg (by rw [h1]; exact Bool.false_ne_true), ih n h2]

theorem subLazyCIF_id (l1 l2 mk rs : List Char) (s : List Char) :
    ∀ fuel : ℕ, hasLazyMatchCI l1 l2 s = false → subLazyCIF l1 l2 mk rs fuel s = s := by
  induction s with
  | nil => intro fuel _; cases fuel <;> rfl
  | cons c cs ih =>
    intro fuel h
    replace h : ((startsWithCI l1 (c :: cs) &&
        (findEndCI l2 ((c :: cs).drop l1.length)).isSome) ||
        hasLazyMatchCI l1 l2 cs) = false := h
    have hab := bor_false_left h
    have hrest := bor_false_right h
    cases fuel with
    | zero => rfl
    | succ n =>
      show (if startsWithCI l1 (c :: cs) = true then
          match findEndCI l2 ((c :: cs).drop l1.length) with
          | some (mid, m2, rest) =>
            mk ++ (c :: cs).take l1.length ++ mid ++ m2 ++ rs ++
              subLazyCIF l1 l2 mk rs n rest
          | none => c :: subLazyCIF l1 l2 mk rs n cs
        else c :: subLazyCIF l1 l2 mk rs n cs) = c :: cs
      cases hsw : startsWithCI l1 (c :: cs) with
      | false =>
        rw [if_neg Bool.false_ne_true, ih n hrest]
      | true =>
        rw [if_pos rfl]
        have hfe : (findEndCI l2 ((c :: cs).drop l1.length)).isSome = false := by
          rw [hsw] at hab
          simpa using hab
        cases hfeo : findEndCI l2 ((c :: cs).drop l1.length) with
        | none =>
          show c :: subLazyCIF l1 l2 mk rs n cs = c :: cs
          rw [ih n hrest]
        | some x =>
          rw [hfeo] at hfe
          simp at hfe

theorem startsWithExact_append (pat : List Char) :
    ∀ s : List Char, startsWithExact pat s = true → s = pat ++ s.drop pat.length := by
  induction pat with
  | nil => intro s _; simp
  | cons p ps ih =>
    intro s h
    cases s with
    | nil => simp [startsWithExact] at h
    | cons c cs =>
      replace h : ((c == p) && startsWithExact ps cs) = true := h
      obtain ⟨h1, h2⟩ : (c == p) = true ∧ startsWithExact ps cs = true := by
        simpa using h
      have hc : c = p := eq_of_beq h1
      subst hc
      exact congrArg (fun l => c :: l) (ih cs h2)

theorem startsWithCI_length_le (pat : List Char) :
    ∀ s : List Char, startsWithCI pat s = true → pat.length ≤ s.length := by
  induction pat with
  | nil => intro s _; simp
  | cons p ps ih =>
    intro s h
    cases s with
    | nil => simp [startsWithCI] at h
    | cons c cs =>
      replace h : ((c.toLower == p) && startsWithCI ps cs) = true := h
      obtain ⟨h1, h2⟩ : (c.toLower == p) = true ∧ startsWithCI ps cs = true := by
        simpa using h
      have := ih cs h2
      simp only [List.length_cons]
      omega

theorem occursExactL_nil_of_ne (pat : List Char) (hpat : pat ≠ []) :
    occursExactL pat [] = false := by
  cases pat with
  | nil => exact absurd rfl hpat
  | cons p ps => rfl

theorem findEndCI_spec (l2 : List Char) :
    ∀ u mid m2 rest : List Char, findEndCI l2 u = some (mid, m2, rest) →
      u = mid ++ m2 ++ rest ∧ m2.length = l2.length ∧
        startsWithCI l2 (m2 ++ rest) = true ∧
        (∀ mid1 mid2, mid = mid1 ++ mid2 → mid2 ≠ [] →
          startsWithCI l2 (mid2 ++ m2 ++ rest) = false) ∧
        '\n' ∉ mid := by
  intro u
  induction u with
  | nil =>
    intro mid m2 rest h
    replace h : (if startsWithCI l2 [] = true then
        some (([] : List Char), ([] : List Char), ([] : List Char))
      else none) = some (mid, m2, rest) := h
    by_cases hsw : startsWithCI l2 [] = true
    · rw [if_pos hsw] at h
      simp only [Option.some.injEq, Prod.mk.injEq] at h
      obtain ⟨rfl, rfl, rfl⟩ := h
      have hl2 : l2 = [] := by
        cases l2 with
        | nil => rfl
        | cons p ps => simp [startsWithCI] at hsw
      subst hl2
      refine ⟨rfl, rfl, rfl, ?_, by simp⟩
      intro mid1 mid2 heq hne
      exact absurd (List.append_eq_nil.mp heq.symm).2 hne
    · rw [if_neg hsw] at h
      exact Option.noConfusion h
  | cons c cs ih =>
    intro mid m2 rest h
    replace h : (if startsWithCI l2 (c :: cs) = true then
        some (([] : List Char), (c :: cs).take l2.length, (c :: cs).drop l2.length)
      else if (c == '\n') = true then none
      else
        match findEndCI l2 cs with
        | some (mid, m2, rest) => some (c :: mid, m2, rest)
        | none => none) = some (mid, m2, rest) := h
    by_cases hsw : startsWithCI l2 (c :: cs) = true
    · rw [if_pos hsw] at h
      simp only [Option.some.injEq, Prod.mk.injEq] at h
      obtain ⟨rfl, rfl, rfl⟩ := h
      have hlen : l2.length ≤ (c :: cs).length := startsWithCI_length_le l2 _ hsw
      refine ⟨(List.take_append_drop _ _).symm, ?_, ?_, ?_, by simp⟩
      · rw [List.length_take, min_eq_left hlen]
      · rw [List.take_append_drop]
        exact hsw
      · intro mid1 mid2 heq hne
        exact absurd (List.append_eq_nil.mp heq.symm).2 hne
    · rw [if_neg hsw] at h
      have hswf : startsWithCI l2 (c :: cs) = false := by
        cases hb : startsWithCI l2 (c :: cs)
        · rfl
        · exact absurd hb hsw
      by_cases hnlc : (c == '\n') = true
      · rw [if_pos hnlc] at h
        exact Option.noConfusion h
      · rw [if_neg hnlc] at h
        cases hfe : findEndCI l2 cs with
        | none =>
          rw [hfe] at h
          exact Option.noConfusion h
        | some x =>
          obtain ⟨mid', m2', rest'⟩ := x
          rw [hfe] at h
          simp only [Option.some.injEq, Prod.mk.injEq] at h
          obtain ⟨rfl, rfl, rfl⟩ := h
          obtain ⟨hu, hl, hm, hshort, hmem⟩ := ih mid' m2' rest' hfe
          have hcne : c ≠ '\n' := by
            intro hcc
            apply hnlc
            rw [hcc]
            decide
          refine ⟨congrArg (fun l => c :: l) hu, hl, hm, ?_, ?_⟩
          · intro mid1 mid2 heq hne
            cases mid1 with
            | nil =>
              simp only [List.nil_append] at heq
              rw [← heq]
              show startsWithCI l2 (c :: (mid' ++ m2' ++ rest')) = false
              rw [← hu]
              exact hswf
            | cons d mid1' =>
              rw [List.cons_append] at heq
              injection heq with h1 h2
              exact hshort mid1' mid2 h2 hne
          · intro hmemc
            rcases List.mem_cons.mp hmemc with h | h
            · exact hcne h.symm
            · exact hmem h

theorem ReplaceRewrites_cons (pat rep : List Char) (c : Char) (cs out : List Char)
    (hsw : startsWithExact pat (c :: cs) = false)
    (h : ReplaceRewrites pat rep cs out) :
    ReplaceRewrites pat rep (c :: cs) (c :: out) := by
  cases h with
  | last _ hno =>
    apply ReplaceRewrites.last
    show (startsWithExact pat (c :: cs) || occursExactL pat cs) = false
    rw [hsw, hno]
    rfl
  | step a rest out' hleft hrest =>
    have hnew : ∀ a1 a2, c :: a = a1 ++ a2 → a2 ≠ [] →
        startsWithExact pat (a2 ++ pat ++ rest) = false := by
      intro a1 a2 heq hne
      cases a1 with
      | nil =>
        simp only [List.nil_append] at heq
        rw [← heq]
        exact hsw
      | cons d a1' =>
        rw [List.cons_append] at heq
        injection heq with h1 h2
        exact hleft a1' a2 h2 hne
    exact ReplaceRewrites.step (c :: a) rest out' hnew hrest

theorem LazyRewrites_cons (l1 l2 mk rs : List Char) (c : Char) (cs out : List Char)
    (hg : (startsWithCI l1 (c :: cs) &&
      (findEndCI l2 ((c :: cs).drop l1.length)).isSome) = false)
    (h : LazyRewrites l1 l2 mk rs cs out) :
    LazyRewrites l1 l2 mk rs (c :: cs) (c :: out) := by
  cases h with
  | last _ hno =>
    apply LazyRewrites.last
    show ((startsWithCI l1 (c :: cs) &&
      (findEndCI l2 ((c :: cs).drop l1.length)).isSome) ||
      hasLazyMatchCI l1 l2 cs) = false
    rw [hg, hno]
    rfl
  | step a o1 mid m2 rest out' hleft ho1 hm1 hm2len hm2 hshort hnl hrest =>
    have hnew : ∀ a1 a2, c :: a = a1 ++ a2 → a2 ≠ [] →
        (startsWithCI l1 (a2 ++ o1 ++ mid ++ m2 ++ rest) &&
          (findEndCI l2 ((a2 ++ o1 ++ mid ++ m2 ++ rest).drop l1.length)).isSome) =
          false := by
      intro a1 a2 heq hne
      cases a1 with
      | nil =>
        simp only [List.nil_append] at heq
        rw [← heq]
        exact hg
      | cons d a1' =>
        rw [List.cons_append] at heq
        injection heq with h1 h2
        exact hleft a1' a2 h2 hne
    exact LazyRewrites.step (c :: a) o1 mid m2 rest out' hnew ho1 hm1 hm2len hm2
      hshort hnl hrest

theorem replaceAllF_rewrites (pat rep : List Char) (hpat : pat ≠ []) :
    ∀ (fuel : ℕ) (s : List Char), s.length ≤ fuel →
      ReplaceRewrites pat rep s (replaceAllF pat rep fuel s) := by
  intro fuel
  induction fuel with
  | zero =>
    intro s hs
    have hnil : s = [] := List.length_eq_zero.mp (Nat.le_zero.mp hs)
    subst hnil
    exact ReplaceRewrites.last [] (occursExactL_nil_of_ne pat hpat)
  | succ n ih =>
    intro s hs
    cases s with
    | nil => exact ReplaceRewrites.last [] (occursExactL_nil_of_ne pat hpat)
    | cons c cs =>
      have hpl : 1 ≤ pat.length := by
        cases pat with
        | nil => exact absurd rfl hpat
        | cons p ps => simp
      by_cases hsw : startsWithExact pat (c :: cs) = true
      · have hdec := startsWithExact_append pat (c :: cs) hsw
        have hlen : ((c :: cs).drop pat.length).length ≤ n := by
          rw [List.length_drop]
          simp only [List.length_cons] at hs ⊢
          omega
        have hout : replaceAllF pat rep (n + 1) (c :: cs) =
            rep ++ replaceAllF pat rep n ((c :: cs).drop pat.length) := by
          show (if startsWithExact pat (c :: cs) = true then
              rep ++ replaceAllF pat rep n ((c :: cs).drop pat.length)
            else c :: replaceAllF pat rep n cs) =
            rep ++ replaceAllF pat rep n ((c :: cs).drop pat.length)
          rw [if_pos hsw]
        rw [hout]
        nth_rewrite 1 [hdec]
        refine ReplaceRewrites.step [] ((c :: cs).drop pat.length) _ ?_
          (ih ((c :: cs).drop pat.length) hlen)
        intro a1 a2 heq hne
        exact absurd (List.append_eq_nil.mp heq.symm).2 hne
      · have hswf : startsWithExact pat (c :: cs) = false := by
          cases hb : startsWithExact pat (c :: cs)
          · rfl
          · exact absurd hb hsw
        have hout : replaceAllF pat rep (n + 1) (c :: cs) =
            c :: replaceAllF pat rep n cs := by
          show (if startsWithExact pat (c :: cs) = true then
              rep ++ replaceAllF pat rep n ((c :: cs).drop pat.length)
            else c :: replaceAllF pat rep n cs) = c :: replaceAllF pat rep n cs
          rw [if_neg hsw]
        rw [hout]
        refine ReplaceRewrites_cons pat rep c cs _ hswf (ih cs ?_)
        simp only [List.length_cons] at hs
        omega

theorem subLazyCIF_rewrites (l1 l2 mk rs : List Char) (h1ne : l1 ≠ []) :
    ∀ (fuel : ℕ) (s : List Char), s.length ≤ fuel →
      LazyRewrites l1 l2 mk rs s (subLazyCIF l1 l2 mk rs fuel s) := by
  intro fuel
  induction fuel with
  | zero =>
    intro s hs
    have hnil : s = [] := List.length_eq_zero.mp (Nat.le_zero.mp hs)
    subst hnil
    exact LazyRewrites.last [] rfl
  | succ n ih =>
    intro s hs
    cases s with
    | nil => exact LazyRewrites.last [] rfl
    | cons c cs =>
      have hl1 : 1 ≤ l1.length := by
        cases l1 with
        | nil => exact absurd rfl h1ne
        | cons p ps => simp
      by_cases hsw : startsWithCI l1 (c :: cs) = true
      · cases hfe : findEndCI l2 ((c :: cs).drop l1.length) with
        | some x =>
          obtain ⟨mid, m2, rest⟩ := x
          obtain ⟨hu, hm2len, hm2, hshort, hnlm⟩ := findEndCI_spec l2 _ mid m2 rest hfe
          have hl1len : l1.length ≤ (c :: cs).length := startsWithCI_length_le l1 _ hsw
          have ho1len : ((c :: cs).take l1.length).length = l1.length := by
            rw [List.length_take, min_eq_left hl1len]
          have hdec : c :: cs = (c :: cs).take l1.length ++ mid ++ m2 ++ rest := by
            have h0 := List.take_append_drop l1.length (c :: cs)
            rw [hu] at h0
            rw [← List.append_assoc, ← List.append_assoc] at h0
            exact h0.symm
          have hm1 : startsWithCI l1
              ((c :: cs).take l1.length ++ mid ++ m2 ++ rest) = true := by
            rw [← hdec]
            exact hsw
          have hrestlen : rest.length ≤ n := by
            have hdl := List.length_drop l1.length (c :: cs)
            rw [hu] at hdl
            simp only [List.length_append, List.length_cons] at hdl hs
            omega
          have hout : subLazyCIF l1 l2 mk rs (n + 1) (c :: cs) =
              mk ++ (c :: cs).take l1.length ++ mid ++ m2 ++ rs ++
                subLazyCIF l1 l2 mk rs n rest := by
            show (if startsWithCI l1 (c :: cs) = true then
                match findEndCI l2 ((c :: cs).drop l1.length) with
                | some (mid, m2, rest) =>
                  mk ++ (c :: cs).take l1.length ++ mid ++ m2 ++ rs ++
                    subLazyCIF l1 l2 mk rs n rest
                | none => c :: subLazyCIF l1 l2 mk rs n cs
              else c :: subLazyCIF l1 l2 mk rs n cs) =
              mk ++ (c :: cs).take l1.length ++ mid ++ m2 ++ rs ++
                subLazyCIF l1 l2 mk rs n rest
            rw [if_pos hsw, hfe]
          rw [hout]
          nth_rewrite 1 [hdec]
          refine LazyRewrites.step [] ((c :: cs).take l1.length) mid m2 rest _ ?_
            ho1len hm1 hm2len hm2 hshort hnlm (ih rest hrestlen)
          intro a1 a2 heq hne
          exact absurd (List.append_eq_nil.mp heq.symm).2 hne
        | none =>
          have hout : subLazyCIF l1 l2 mk rs (n + 1) (c :: cs) =
              c :: subLazyCIF l1 l2 mk rs n cs := by
            show (if startsWithCI l1 (c :: cs) = true then
                match findEndCI l2 ((c :: cs).drop l1.length) with
                | some (mid, m2, rest) =>
                  mk ++ (c :: cs).take l1.length ++ mid ++ m2 ++ rs ++
                    subLazyCIF l1 l2 mk rs n rest
                | none => c :: subLazyCIF l1 l2 mk rs n cs
              else c :: subLazyCIF l1 l2 mk rs n cs) = c :: subLazyCIF l1 l2 mk rs n cs
            rw [if_pos hsw, hfe]
          rw [hout]
          refine LazyRewrites_cons l1 l2 mk rs c cs _ ?_ (ih cs ?_)
          · rw [hfe]
            simp
          · simp only [List.length_cons] at hs
            omega
      · have hswf : startsWithCI l1 (c :: cs) = false := by
          cases hb : startsWithCI l1 (c :: cs)
          · rfl
          · exact absurd hb hsw
        have hout : subLazyCIF l1 l2 mk rs (n + 1) (c :: cs) =
            c :: subLazyCIF l1 l2 mk rs n cs := by
          show (if startsWithCI l1 (c :: cs) = true then
              match findEndCI l2 ((c :: cs).drop l1.length) with
              | some (mid, m2, rest) =>
                mk ++ (c :: cs).take l1.length ++ mid ++ m2 ++ rs ++
                  subLazyCIF l1 l2 mk rs n rest
              | none => c :: subLazyCIF l1 l2 mk rs n cs
            else c :: subLazyCIF l1 l2 mk rs n cs) = c :: subLazyCIF l1 l2 mk rs n cs
          rw [if_neg hsw]
        rw [hout]
        refine LazyRewrites_cons l1 l2 mk rs c cs _ ?_ (ih cs ?_)
        · rw [hswf]
          simp
        · simp only [List.length_cons] at hs
          omega

/-- Claim C7: for every marine forecast text, phrase highlighting wraps
exactly the three independent categories of spans and nothing else.  For
every text, the warning stage's output decomposes into unchanged segments in
which the literal "STRONG WIND WARNING IN EFFECT" never starts, interleaved
with exactly that literal substring wrapped in the red marker
(`ReplaceRewrites`); for every text each `re.sub` stage's output decomposes
into unchanged segments admitting no match start, interleaved with wrapped
spans, each span a leftmost, shortest (non-greedy), newline-free,
case-insensitive match running from "inflow" through "northern sections"
inclusive (green) respectively from "outflow" through "southern sections"
inclusive (blue), with scanning resuming after each match
(`LazyRewrites`); `highlightMarine` is exactly the composition of the three
stages; and on the spec's examples the warning literal, the mixed-case
outflow span, and both matches of a double-inflow text are wrapped with all
surrounding text unchanged. -/
theorem c7_phrase_highlighting (s : String) (t : List Char) :
    ReplaceRewrites (strL warnText) (strL (H_RED ++ warnText ++ H_RESET)) t
      (pyReplaceAll (strL warnText) (strL (H_RED ++ warnText ++ H_RESET)) t) ∧
    LazyRewrites (strL ("inflow")) (strL ("northern sections"))
      (strL H_GREEN) (strL H_RESET) t
      (pySubLazyCI (strL ("inflow")) (strL ("northern sections"))
        (strL H_GREEN) (strL H_RESET) t) ∧
    LazyRewrites (strL ("outflow")) (strL ("southern sections"))
      (strL H_BLUE) (strL H_RESET) t
      (pySubLazyCI (strL ("outflow")) (strL ("southern sections"))
        (strL H_BLUE) (strL H_RESET) t) ∧
    highlightMarine s =
      ofL (pySubLazyCI (strL ("outflow")) (strL ("southern sections"))
        (strL H_BLUE) (strL H_RESET)
        (pySubLazyCI (strL ("inflow")) (strL ("northern sections"))
          (strL H_GREEN) (strL H_RESET)
          (pyReplaceAll (strL warnText)
            (strL (H_RED ++ warnText ++ H_RESET)) (strL s)))) ∧
    highlightMarine ("Winds 15 to 25 knots. STRONG WIND WARNING IN EFFECT for Howe Sound") =
      "Winds 15 to 25 knots. " ++ H_RED ++ warnText ++ H_RESET ++ " for Howe Sound" ∧
    highlightMarine ("Outflow winds reach 30 knots in southern sections") =
      H_BLUE ++ "Outflow winds reach 30 knots in southern sections" ++ H_RESET ∧
    highlightMarine ("inflow to northern sections. inflow again northern sections") =
      H_GREEN ++ "inflow to northern sections" ++ H_RESET ++ ". " ++
        H_GREEN ++ "inflow again northern sections" ++ H_RESET :=
  ⟨replaceAllF_rewrites (strL warnText) (strL (H_RED ++ warnText ++ H_RESET))
      (by decide) t.length t (le_refl _),
    subLazyCIF_rewrites (strL ("inflow")) (strL ("northern sections"))
      (strL H_GREEN) (strL H_RESET) (by decide) t.length t (le_refl _),
    subLazyCIF_rewrites (strL ("outflow")) (strL ("southern sections"))
      (strL H_BLUE) (strL H_RESET) (by decide) t.length t (le_refl _),
    rfl, by decide, by decide, by decide⟩

theorem get_marine_entries_eq (region : String) (entries : List FeedEntry) :
    get_marine_entries region entries =
      (entries.filter (keepsEntry region)).map entryToForecast := by
  induction entries with
  | nil => rfl
  | cons e rest ih =>
    show (if startsWithCI (strL ("extended forecast")) (strL e.title) = true then
        get_marine_entries region rest
      else if occursExactL (strL region) (strL e.title) = true then
        entryToForecast e :: get_marine_entries region rest
      else get_marine_entries region rest) =
      ((e :: rest).filter (keepsEntry region)).map entryToForecast
    by_cases hext : startsWithCI (strL ("extended forecast")) (strL e.title) = true
    · rw [if_pos hext, ih, List.filter_cons,
        if_neg (by simp [keepsEntry, hext])]
    · have hext' : startsWithCI (strL ("extended forecast")) (strL e.title) = false := by
        cases h : startsWithCI (strL ("extended forecast")) (strL e.title)
        · rfl
        · exact absurd h hext
      by_cases hocc : occursExactL (strL region) (strL e.title) = true
      · rw [if_neg hext, if_pos hocc, ih, List.filter_cons,
          if_pos (by simp [keepsEntry, hext', hocc]), List.map_cons]
      · have hocc' : occursExactL (strL region) (strL e.title) = false := by
          cases h : occursExactL (strL region) (strL e.title)
          · rfl
          · exact absurd h hocc
        rw [if_neg hext, if_neg hocc, ih, List.filter_cons,
          if_neg (by simp [keepsEntry, hocc'])]

/-- Claim C8: for every list of feed entries, the marine forecast parser
drops every entry whose title begins with "Extended Forecast"
case-insensitively (regardless of any region match) and retains exactly the
remaining entries whose title contains the configured region substring, each
appearing in order with its title, its first-line forecast text (the summary
up to the first `<br/>`, stripped), and its formatted published time; in
particular an entry titled "Extended Forecast for Howe Sound" is excluded
even though it matches the region "Howe Sound". -/
theorem c8_feed_filtering (region : String) (entries : List FeedEntry) :
    get_marine_entries region entries =
      (entries.filter (keepsEntry region)).map entryToForecast ∧
    (∀ e : FeedEntry, keepsEntry region e =
      (!startsWithCI (strL ("extended forecast")) (strL e.title) &&
        occursExactL (strL region) (strL e.title))) ∧
    get_marine_entries ("Howe Sound")
      [⟨"Extended Forecast for Howe Sound", "Periods of rain.", "2025-06-03T12:00:00Z"⟩] =
      [] ∧
    get_marine_entries ("Howe Sound")
      [⟨"Extended Forecast for Howe Sound", "Periods of rain.", "2025-06-03T12:00:00Z"⟩,
       ⟨"Marine Forecast Howe Sound", "Winds light.<br/>More", "2025-06-03T12:00:00Z"⟩] =
      [⟨"Marine Forecast Howe Sound", "Winds light.", "2025-06-03 12:00"⟩] :=
  ⟨get_marine_entries_eq region entries, fun _ => rfl, by decide, by decide⟩

/-- Claim C9: every failure while fetching or parsing the marine feed
degrades to an empty result — `get_marine_forecast` returns `[]` on any
raised error and the marine section renders the "no forecasts available"
notice — and the marine section never raises (it is a total function of the
fetch outcome), so the wind/temperature table is always produced: it appears
unchanged as the suffix of the report after the marine section, whatever the
fetch outcome was. -/
theorem c9_marine_failure_degrades (e : String)
    (fetched : Except String (List FeedEntry)) (tableLines : List String) :
    get_marine_forecast (Except.error e) ("Howe Sound") = [] ∧
    display_marine_forecasts (Except.error e) =
      ["", "Forecast for Today, Tonight and Sunday - Howe Sound",
        ofL (List.replicate 75 '='),
        "Error retrieving marine forecast: " ++ e,
        "No marine forecasts available for Howe Sound.", ""] ∧
    mainReport fetched tableLines = display_marine_forecasts fetched ++ tableLines ∧
    List.IsSuffix tableLines (mainReport fetched tableLines) :=
  ⟨rfl, rfl, rfl, ⟨display_marine_forecasts fetched, rfl⟩⟩
